import Mathlib

/-!
Verification of the fuzzy cache-key resolution engine of the
custom_search_component_service repository.

The Go source is shallowly embedded as executable Lean definitions:

* `normalizeQuery`            — internal/app/handlers/search.go, normalizeQuery
* `generateCacheKeyVariations`— search.go, generateCacheKeyVariations
* `findSimilarCachedQueries`  — search.go, findSimilarCachedQueries
* `checkCache` / `searchModel`— search.go, checkCache and Search
* `getJSON`, `cacheSet`, `cacheKeysGo` — internal/cache/cache.go
* `levDist`                   — the levenshtein library dependency
   (github.com/agnivade/levenshtein), modelled by the standard
   dynamic-programming edit distance it computes
* `sortSliceGo`               — Go's sort.Slice (pdqsort, Go >= 1.19),
   modelled instruction for instruction

Strings are modelled as `List Char` (one entry per rune).  Go `float64`
scores are modelled as `ℚ`; for the score values that actually occur
(1/(d+1) for d ≤ 3 and word ratios m/n with tiny m, n) the rational
comparisons agree with the float64 comparisons of the source.
Go's `unicode.ToLower` is modelled by `Char.toLower` (ASCII case
folding); every non-ASCII character is removed by the `[^\w\s]`
filter of the source in any case, so the restriction is unobservable
in the normalizer's output.
-/

set_option maxRecDepth 100000

/-- Character class of Go's regexp `\s`, i.e. `[\t\n\f\r ]`. -/
def goIsRegexSp (c : Char) : Bool :=
  c = ' ' || c = '\t' || c = '\n' || c = '\x0c' || c = '\r'

/-- Character class of Go's regexp `\w`, i.e. `[0-9A-Za-z_]`. -/
def goIsWordChar (c : Char) : Bool :=
  ('0' ≤ c && c ≤ '9') || ('A' ≤ c && c ≤ 'Z') || ('a' ≤ c && c ≤ 'z') || c = '_'

/-- Go's `unicode.IsSpace` (the White_Space property), used by
`strings.TrimSpace`. -/
def goIsUnicodeSp (c : Char) : Bool :=
  goIsRegexSp c || c = '\x0b' || c = '\x85' || c = '\xa0' ||
  c = '\u1680' || ('\u2000' ≤ c && c ≤ '\u200a') ||
  c = '\u2028' || c = '\u2029' || c = '\u202f' || c = '\u205f' || c = '\u3000'

/-- `strings.ToLower`, character-wise (ASCII folding, see header note). -/
def goToLower (s : List Char) : List Char := s.map Char.toLower

/-- `strings.TrimSpace`: drop leading and trailing white space. -/
def goTrimSp (s : List Char) : List Char :=
  ((s.dropWhile goIsUnicodeSp).reverse.dropWhile goIsUnicodeSp).reverse

/-- The regexp replacement `[^\w\s]` → `""`: keep only word characters and
regexp white space. -/
def keepWordSp (s : List Char) : List Char :=
  s.filter (fun c => goIsWordChar c || goIsRegexSp c)

/-- The regexp replacement `\s+` → `" "`: collapse every maximal run of
regexp white space into one space.  `inRun` records whether the previous
character belonged to a white-space run already replaced. -/
def collapseSpAux (inRun : Bool) : List Char → List Char
  | [] => []
  | c :: cs =>
    if goIsRegexSp c then
      if inRun then collapseSpAux true cs else ' ' :: collapseSpAux true cs
    else c :: collapseSpAux false cs

def collapseSp (s : List Char) : List Char := collapseSpAux false s

/-- No two adjacent regexp white-space characters. -/
def SpaceSeparated (s : List Char) : Prop :=
  List.Chain' (fun a b => goIsRegexSp a = false ∨ goIsRegexSp b = false) s

/-- `normalizeQuery` (search.go lines 114–126): lower-case, trim, remove
characters outside `\w` and `\s`, collapse white-space runs to one space. -/
def normalizeQuery (query : String) : String :=
  ⟨collapseSp (keepWordSp (goTrimSp (goToLower query.data)))⟩

/-! ### Word splitting and joining (strings.Split / strings.Join) -/

/-- Go's `strings.Split(s, " ")`: split on every single space, keeping
empty fields; always returns at least one field. -/
def splitSp : List Char → List (List Char)
  | [] => [[]]
  | c :: cs =>
    if c = ' ' then [] :: splitSp cs
    else
      match splitSp cs with
      | w :: ws => (c :: w) :: ws
      | [] => [[c]]

/-- Go's `strings.Join(ws, sep)`. -/
def joinWith (sep : List Char) (ws : List (List Char)) : List Char :=
  List.intercalate sep ws

/-! ### The levenshtein library dependency

`github.com/agnivade/levenshtein`.ComputeDistance computes the standard
Levenshtein edit distance over runes; we model it by the textbook
row-by-row dynamic program. -/

/-- One row of the edit-distance dynamic program.  `prev` is the previous
row (aligned with `b :: bs`), `cur` the freshly computed entry to the
left. -/
def levRowAux (a : Char) : List Char → Nat → List Nat → List Nat
  | [], _, _ => []
  | b :: bs, cur, p0 :: prest =>
    let p1 := prest.headD 0
    let v := min (min (cur + 1) (p1 + 1)) (p0 + (if a = b then 0 else 1))
    v :: levRowAux a bs v prest
  | _ :: _, _, [] => []

/-- Levenshtein distance between two rune sequences. -/
def levDist (as bs : List Char) : Nat :=
  let final := as.foldl
    (fun (st : List Nat × Nat) a =>
      let row := st.2 :: levRowAux a bs st.2 st.1
      (row, st.2 + 1))
    (List.range (bs.length + 1), 1)
  (final.1.getLastD 0)

/-! ### Variation generator (search.go, generateCacheKeyVariations) -/

/-- Byte-wise (= rune-wise, by UTF-8 order preservation) `<` on Go
strings, as used by `sort.Strings`. -/
def lexLt : List Char → List Char → Bool
  | [], [] => false
  | [], _ :: _ => true
  | _ :: _, [] => false
  | a :: as, b :: bs => if a < b then true else if b < a then false else lexLt as bs

/-- `sort.Strings`: sort ascending.  Duplicate strings are identical, so
any correct sort produces the same list; we use insertion sort. -/
def insertStr (x : List Char) : List (List Char) → List (List Char)
  | [] => [x]
  | y :: ys => if lexLt x y then x :: y :: ys else y :: insertStr x ys

def sortStringsGo (l : List (List Char)) : List (List Char) :=
  l.foldr insertStr []

/-- The duplicate-removal loop of generateCacheKeyVariations (lines
158–166): keep a variation when it is non-empty and not seen before. -/
def dedupGo (seen : List String) : List String → List String
  | [] => []
  | v :: vs =>
    if v ≠ "" ∧ v ∉ seen then v :: dedupGo (v :: seen) vs
    else dedupGo seen vs

/-- `generateCacheKeyVariations` (search.go lines 129–169). -/
def generateCacheKeyVariations (query : String) : List String :=
  let normalized := normalizeQuery query
  let queryWords := splitSp normalized.data
  let variations := [normalized]
  let sortedWords := sortStringsGo queryWords
  let variations := variations ++ [⟨joinWith [' '] sortedWords⟩]
  let longWords := queryWords.filter (fun w => w.length > 3)
  let variations :=
    if longWords.length > 0 then variations ++ [⟨joinWith [' '] longWords⟩]
    else variations
  let variations := variations ++ [⟨joinWith [] queryWords⟩]
  dedupGo [] variations

/-! ### Fuzzy-scan candidate scoring (search.go lines 45–98) -/

/-- `strings.TrimPrefix`. -/
def goTrimPre (s pre : List Char) : List Char :=
  if s.take pre.length = pre then s.drop pre.length else s

/-- A fuzzy cache match (search.go, type CacheMatch). -/
structure CacheMatch where
  Key : String
  CachedQuery : String
  Score : ℚ
  Method : String
deriving DecidableEq, Repr, Inhabited

/-- `maxLevenshteinDistance` (search.go line 46). -/
def maxLevenshteinDistance : Nat := 3

/-- The body of the key-scanning loop (lines 48–98) for one enumerated
key: skip exact matches, accept by whole-string distance ≤ 3 with score
1/(distance+1), otherwise accept by word-overlap ratio ≥ 0.6. -/
def scoreKey (normalized : List Char) (queryWords : List (List Char))
    (key : String) : Option CacheMatch :=
  let cachedQuery := goTrimPre key.data "search:".data
  if cachedQuery = normalized then none
  else
    let distance := levDist normalized cachedQuery
    if distance ≤ maxLevenshteinDistance then
      some ⟨key, ⟨cachedQuery⟩, mkRat 1 (distance + 1), "levenshtein"⟩
    else
      let cachedWords := splitSp cachedQuery
      let matchingWords :=
        queryWords.countP (fun q => cachedWords.any (fun w => levDist q w ≤ 2))
      let maxLen := max queryWords.length cachedWords.length
      let wordFrac : ℚ := mkRat matchingWords maxLen
      if wordFrac ≥ mkRat 3 5 then some ⟨key, ⟨cachedQuery⟩, wordFrac, "word-match"⟩
      else none

/-- The whole scanning loop: candidates in key-enumeration order. -/
def collectMatches (normalized : List Char) (queryWords : List (List Char))
    (keys : List String) : List CacheMatch :=
  keys.filterMap (scoreKey normalized queryWords)

/-! ### Go's sort.Slice

search.go line 101 sorts the candidate slice with `sort.Slice`, which for
Go ≥ 1.19 is pdqsort (src/sort/zsortfunc.go), an *unstable* sort.  We
model it instruction for instruction.  Loops are modelled by structural
recursion on an explicit iteration bound (`fuel`) chosen far above the
loop's true iteration count, so evaluation and the short-slice
(insertion-sort) branch are exact. -/

section GoSort

variable {α : Type} [Inhabited α] (lt : α → α → Bool)

/-- Read `data[i]` (indices stay in bounds in the algorithm; `Array` is
a wrapper around `List`, so indexing is list indexing). -/
def aGet (A : Array α) (i : Nat) : α := A.toList.getD i default

/-- `data.Swap(i, j)`. -/
def aswap (A : Array α) (i j : Nat) : Array α :=
  ⟨(A.toList.set i (aGet A j)).set j (aGet A i)⟩

/-- `data.Less(i, j)`. -/
def lessAt (A : Array α) (i j : Nat) : Bool := lt (aGet A i) (aGet A j)

/-- Inner loop of insertionSort_func: bubble the element at `j` left
while `j > a && data.Less(j, j-1)`. -/
def bubbleLeft (aLo : Nat) : Array α → Nat → Array α
  | A, 0 => A
  | A, j+1 =>
    if aLo < j+1 && lessAt lt A (j+1) j then bubbleLeft aLo (aswap A (j+1) j) j
    else A

/-- Outer loop of insertionSort_func: `for i := a+1; i < b; i++`. -/
def insertionLoop (aLo : Nat) : Array α → Nat → Nat → Array α
  | A, _, 0 => A
  | A, i, k+1 => insertionLoop aLo (bubbleLeft lt aLo A i) (i+1) k

/-- insertionSort_func. -/
def insertionSortGo (A : Array α) (aLo b : Nat) : Array α :=
  insertionLoop lt aLo A (aLo+1) (b - (aLo+1))

/-- siftDown_func. -/
def siftDownGo (first : Nat) : Array α → Nat → Nat → Nat → Array α
  | A, _, _, 0 => A
  | A, root, hi, fuel+1 =>
    let child := 2*root + 1
    if child ≥ hi then A
    else
      let child :=
        if child + 1 < hi && lessAt lt A (first+child) (first+child+1) then child+1
        else child
      if !(lessAt lt A (first+root) (first+child)) then A
      else siftDownGo first (aswap A (first+root) (first+child)) child hi fuel

def siftDownFull (A : Array α) (lo hi first : Nat) : Array α :=
  siftDownGo lt first A lo hi (hi+1)

/-- heapSort_func, heap-building loop: `for i := (hi-1)/2; i >= 0; i--`. -/
def heapBuild (first hi : Nat) : Array α → Nat → Array α
  | A, 0 => A
  | A, k+1 => heapBuild first hi (siftDownFull lt A k hi first) k

/-- heapSort_func, pop loop: `for i := hi-1; i >= 1; i--`. -/
def heapPop (first : Nat) : Array α → Nat → Array α
  | A, 0 => A
  | A, i+1 =>
    heapPop first (siftDownFull lt (aswap A first (first+(i+1))) 0 (i+1) first) i

/-- heapSort_func. -/
def heapSortGo (A : Array α) (a b : Nat) : Array α :=
  let first := a
  let hi := b - a
  let A := heapBuild lt first hi A ((hi-1)/2 + 1)
  heapPop lt first A (hi - 1)

/-- reverseRange_func. -/
def reverseRangeGo : Array α → Nat → Nat → Nat → Array α
  | A, _, _, 0 => A
  | A, i, j, fuel+1 => if i < j then reverseRangeGo (aswap A i j) (i+1) (j-1) fuel else A

def reverseRangeFull (A : Array α) (a b : Nat) : Array α :=
  reverseRangeGo A a (b-1) b

/-- order2_func: indices ordered by the data, counting swaps. -/
def order2Go (A : Array α) (a b swaps : Nat) : Nat × Nat × Nat :=
  if lessAt lt A b a then (b, a, swaps+1) else (a, b, swaps)

/-- median_func. -/
def medianGo (A : Array α) (a b c swaps : Nat) : Nat × Nat :=
  let (a, b, swaps) := order2Go lt A a b swaps
  let (b, _, swaps) := order2Go lt A b c swaps
  let (_, b, swaps) := order2Go lt A a b swaps
  (b, swaps)

/-- medianAdjacent_func. -/
def medianAdjGo (A : Array α) (a swaps : Nat) : Nat × Nat :=
  medianGo lt A (a-1) a (a+1) swaps

inductive SortedHint | increasing | decreasing | unknown
deriving DecidableEq, Repr

/-- choosePivot_func (shortestNinther = 50, maxSwaps = 12). -/
def choosePivotGo (A : Array α) (a b : Nat) : Nat × SortedHint :=
  let l := b - a
  let i := a + l/4*1
  let j := a + l/4*2
  let k := a + l/4*3
  let (j, swaps) :=
    if l ≥ 8 then
      if l ≥ 50 then
        let (i, s1) := medianAdjGo lt A i 0
        let (j, s2) := medianAdjGo lt A j s1
        let (k, s3) := medianAdjGo lt A k s2
        medianGo lt A i j k s3
      else medianGo lt A i j k 0
    else (j, 0)
  if swaps = 0 then (j, SortedHint.increasing)
  else if swaps = 12 then (j, SortedHint.decreasing)
  else (j, SortedHint.unknown)

/-- The xorshift PRNG of sort (uint64 modelled as Nat mod 2^64). -/
def xorshiftNext (x : Nat) : Nat :=
  let x := (x ^^^ (x <<< 13)) % 2^64
  let x := (x ^^^ (x >>> 7)) % 2^64
  (x ^^^ (x <<< 17)) % 2^64

/-- bits.Len (length in bits of a Nat); the halving loop runs on
structural fuel `n+1`, which always suffices. -/
def bitsLenAux : Nat → Nat → Nat
  | 0, _ => 0
  | fuel+1, n => if n = 0 then 0 else bitsLenAux fuel (n / 2) + 1

def bitsLen (n : Nat) : Nat := bitsLenAux (n+1) n

/-- nextPowerOfTwo: `1 << bits.Len(uint(length))`. -/
def nextPowTwo (length : Nat) : Nat := 2 ^ (bitsLen length)

/-- breakPatterns_func. -/
def breakPatternsGo (A : Array α) (a b : Nat) : Array α :=
  let length := b - a
  if length ≥ 8 then
    let modulus := nextPowTwo length
    let idx := a + (length/4)*2 - 1
    let step := fun (st : Array α × Nat) (i : Nat) =>
      let r := xorshiftNext st.2
      let other := r &&& (modulus - 1)
      let other := if other ≥ length then other - length else other
      (aswap st.1 (idx - 1 + i) (a + other), r)
    ((List.range 3).foldl step (A, length)).1
  else A

/-- partition_func scanning loop `for i <= j && data.Less(i, a) { i++ }`. -/
def scanUp (aP : Nat) : Array α → Nat → Nat → Nat → Nat
  | _, i, _, 0 => i
  | A, i, j, fuel+1 =>
    if i ≤ j && lessAt lt A i aP then scanUp aP A (i+1) j fuel else i

/-- partition_func scanning loop `for i <= j && !data.Less(j, a) { j-- }`. -/
def scanDown (aP : Nat) : Array α → Nat → Nat → Nat → Nat
  | _, _, j, 0 => j
  | A, i, j, fuel+1 =>
    if i ≤ j && !(lessAt lt A j aP) then scanDown aP A i (j-1) fuel else j

/-- Main loop of partition_func. -/
def partitionLoop (aP : Nat) : Array α → Nat → Nat → Nat → Array α × Nat
  | A, _, j, 0 => (A, j)
  | A, i, j, fuel+1 =>
    let i := scanUp lt aP A i j (j+2)
    let j := scanDown lt aP A i j (j+2)
    if i > j then (A, j)
    else partitionLoop aP (aswap A i j) (i+1) (j-1) fuel

/-- partition_func. -/
def partitionGo (A : Array α) (a b pivot : Nat) : Array α × Nat × Bool :=
  let A := aswap A a pivot
  let i := a+1
  let j := b-1
  let i := scanUp lt a A i j (j+2)
  let j := scanDown lt a A i j (j+2)
  if i > j then (aswap A j a, j, true)
  else
    let A := aswap A i j
    let (A, j') := partitionLoop lt a A (i+1) (j-1) (b+2)
    (aswap A j' a, j', false)

/-- partitionEqual_func scanning loop `for i <= j && !data.Less(a, i)`. -/
def scanEqUp (aP : Nat) : Array α → Nat → Nat → Nat → Nat
  | _, i, _, 0 => i
  | A, i, j, fuel+1 =>
    if i ≤ j && !(lessAt lt A aP i) then scanEqUp aP A (i+1) j fuel else i

/-- partitionEqual_func scanning loop `for i <= j && data.Less(a, j)`. -/
def scanEqDown (aP : Nat) : Array α → Nat → Nat → Nat → Nat
  | _, _, j, 0 => j
  | A, i, j, fuel+1 =>
    if i ≤ j && lessAt lt A aP j then scanEqDown aP A i (j-1) fuel else j

/-- Main loop of partitionEqual_func; returns the final `i`. -/
def partitionEqLoop (aP : Nat) : Array α → Nat → Nat → Nat → Array α × Nat
  | A, i, _, 0 => (A, i)
  | A, i, j, fuel+1 =>
    let i := scanEqUp lt aP A i j (j+2)
    let j := scanEqDown lt aP A i j (j+2)
    if i > j then (A, i)
    else partitionEqLoop aP (aswap A i j) (i+1) (j-1) fuel

/-- partitionEqual_func. -/
def partitionEqGo (A : Array α) (a b pivot : Nat) : Array α × Nat :=
  let A := aswap A a pivot
  partitionEqLoop lt a A (a+1) (b-1) (b+2)

/-- partialInsertionSort_func, left-shifting loop
`for j := i-1; j >= 1; j--`. -/
def shiftLeftLoop : Array α → Nat → Array α
  | A, 0 => A
  | A, j+1 => if lessAt lt A (j+1) j then shiftLeftLoop (aswap A (j+1) j) j else A

/-- partialInsertionSort_func, right-shifting loop
`for j := i+1; j < b; j++`. -/
def shiftRightLoop (b : Nat) : Array α → Nat → Nat → Array α
  | A, _, 0 => A
  | A, j, fuel+1 =>
    if j < b && lessAt lt A j (j-1) then shiftRightLoop b (aswap A j (j-1)) (j+1) fuel
    else A

/-- partialInsertionSort_func, run detector `for i < b && !data.Less(i, i-1)`. -/
def advanceSorted (b : Nat) : Array α → Nat → Nat → Nat
  | _, i, 0 => i
  | A, i, fuel+1 =>
    if i < b && !(lessAt lt A i (i-1)) then advanceSorted b A (i+1) fuel else i

/-- partialInsertionSort_func main loop (maxSteps = 5,
shortestShifting = 50). -/
def partialISLoop (a b : Nat) : Nat → Array α → Nat → Array α × Bool
  | 0, A, _ => (A, false)
  | steps+1, A, i =>
    let i := advanceSorted lt b A i (b+1)
    if i = b then (A, true)
    else if b - a < 50 then (A, false)
    else
      let A := aswap A i (i-1)
      let A := if i - a ≥ 2 then shiftLeftLoop lt A (i-1) else A
      let A := if b - i ≥ 2 then shiftRightLoop lt b A (i+1) (b+1) else A
      partialISLoop a b steps A i

/-- partialInsertionSort_func. -/
def partialInsertionSortGo (A : Array α) (a b : Nat) : Array α × Bool :=
  partialISLoop lt a b 5 A (a+1)

/-- pdqsort_func.  The Go `for` loop and its recursive calls are unrolled
on `fuel`; a fresh invocation enters with `wasBalanced = wasPartitioned =
true` (maxInsertion = 12). -/
def pdqLoop : Nat → Array α → Nat → Nat → Nat → Bool → Bool → Array α
  | 0, A, _, _, _, _, _ => A
  | fuel+1, A, a, b, limit, wasBalanced, wasPartitioned =>
    let length := b - a
    if length ≤ 12 then insertionSortGo lt A a b
    else if limit = 0 then heapSortGo lt A a b
    else
      let st := if !wasBalanced then (breakPatternsGo A a b, limit - 1) else (A, limit)
      let A := st.1
      let limit := st.2
      let pv := choosePivotGo lt A a b
      let st2 :=
        if pv.2 = SortedHint.decreasing then
          (reverseRangeFull A a b, (b-1) - (pv.1 - a), SortedHint.increasing)
        else (A, pv.1, pv.2)
      let A := st2.1
      let pivot := st2.2.1
      let hint := st2.2.2
      let pis :=
        if wasBalanced && wasPartitioned && hint = SortedHint.increasing then
          partialInsertionSortGo lt A a b
        else (A, false)
      if pis.2 then pis.1
      else
        let A := pis.1
        if a > 0 && !(lessAt lt A (a-1) pivot) then
          let pe := partitionEqGo lt A a b pivot
          pdqLoop fuel pe.1 pe.2 b limit wasBalanced wasPartitioned
        else
          let pr := partitionGo lt A a b pivot
          let A := pr.1
          let mid := pr.2.1
          let wasPartitioned := pr.2.2
          let leftLen := mid - a
          let rightLen := b - mid
          let balanceThreshold := length / 8
          let wasBalanced := decide (min leftLen rightLen ≥ balanceThreshold)
          if leftLen < rightLen then
            let A := pdqLoop fuel A a mid limit true true
            pdqLoop fuel A (mid+1) b limit wasBalanced wasPartitioned
          else
            let A := pdqLoop fuel A (mid+1) b limit true true
            pdqLoop fuel A a mid limit wasBalanced wasPartitioned

/-- sort.Slice: `pdqsort_func(lessSwap, 0, n, bits.Len(uint(n)))`.  The
fuel strictly dominates the number of loop iterations and recursive
calls for every slice considered here; the `length ≤ 12` insertion-sort
branch does not consume fuel at all. -/
def sortSliceGo (l : List α) : List α :=
  let A := l.toArray
  (pdqLoop lt ((A.size + 2) * (A.size + 2) + bitsLen A.size + 2)
    A 0 A.size (bitsLen A.size) true true).toList

end GoSort

/-! ### The cache store (internal/cache/cache.go) and handlers state -/

/-- The upstream response payload (handlers.go, OpenLibraryResponse);
documents are opaque. -/
structure OpenLibraryResponse where
  numFound : Int
  start : Int
  numFoundExact : Bool
  docs : List String
deriving DecidableEq, Repr, Inhabited

/-- A value sitting in redis under some key: either well-formed JSON of a
response, or a value whose retrieval/decoding fails (connectivity or
deserialization error of GetJSON). -/
inductive CacheVal
  | stored (r : OpenLibraryResponse)
  | corrupt
deriving DecidableEq, Repr

/-- The cache handle (cache.Cache): the configured namespace string
`prefix` and the redis contents, as an association list in redis
enumeration order. -/
structure CacheHandle where
  keyPre : String
  entries : List (String × CacheVal)
deriving DecidableEq, Repr

def storeLookup (c : CacheHandle) (k : String) : Option CacheVal :=
  (c.entries.find? (fun e => e.1 = k)).map (·.2)

/-- GetJSON errors.  cache.go wraps every redis error (including
redis.Nil) in fmt.Errorf, so the `err != redis.Nil` test in search.go
line 214 is only about logging; behaviour branches only on `err == nil`. -/
inductive CacheErr | notFound | failure
deriving DecidableEq, Repr

/-- cache.go GetJSON: get `prefix:key` and unmarshal. -/
def getJSON (c : CacheHandle) (key : String) : Except CacheErr OpenLibraryResponse :=
  let fullKey := c.keyPre ++ ":" ++ key
  match storeLookup c fullKey with
  | none => Except.error CacheErr.notFound
  | some CacheVal.corrupt => Except.error CacheErr.failure
  | some (CacheVal.stored r) => Except.ok r

/-- `s` starts with `pre` (rune-wise). -/
def startsW (pre s : List Char) : Bool := s.take pre.length = pre

/-- cache.go Keys, as called with pattern `search:*` (search.go line 38):
redis KEYS `prefix:search:*` returns, in enumeration order, every stored
(full) key beginning with `prefix:search:`. -/
def cacheKeysGo (c : CacheHandle) : List String :=
  (c.entries.map (·.1)).filter (fun k => startsW (c.keyPre ++ ":search:").data k.data)

/-- cache.go Set (redis SET: replace or append), as used by the
write-back of search.go line 370. -/
def setEntry : List (String × CacheVal) → String → CacheVal → List (String × CacheVal)
  | [], k, v => [(k, v)]
  | e :: es, k, v => if e.1 = k then (k, v) :: es else e :: setEntry es k v

def cacheSet (c : CacheHandle) (key : String) (r : OpenLibraryResponse) : CacheHandle :=
  ⟨c.keyPre, setEntry c.entries (c.keyPre ++ ":" ++ key) (CacheVal.stored r)⟩

/-- `findSimilarCachedQueries` (search.go lines 29–111).  The handlers
package cache handle is `nil`-able (handlers.go line 10). -/
def findSimilarCachedQueries (cache : Option CacheHandle) (query : String)
    (maxResults : Nat) : List CacheMatch :=
  match cache with
  | none => []
  | some c =>
    let normalized := normalizeQuery query
    let queryWords := splitSp normalized.data
    let allKeys := cacheKeysGo c
    let cands := collectMatches normalized.data queryWords allKeys
    let sorted := sortSliceGo (fun x y : CacheMatch => decide (y.Score < x.Score)) cands
    if sorted.length > maxResults then sorted.take maxResults else sorted

/-- The (enumerated key, compared string) pairs the fuzzy scan of
search.go lines 38–57 actually examines: `Cache.Keys("search:*")`
followed by `strings.TrimPrefix(key, "search:")` for each key, before
any empty-query test (there is none) or candidate scoring. -/
def fuzzyScannedStrings (cache : Option CacheHandle) (query : String) :
    List (String × String) :=
  match cache with
  | none => []
  | some c => (cacheKeysGo c).map (fun k => (k, ⟨goTrimPre k.data "search:".data⟩))

/-- The exact-variation loop of checkCache (search.go lines 188–219):
first variation whose `GetJSON("search:"++v)` succeeds; every error
(redis.Nil or otherwise) just moves on to the next variation. -/
def firstExactHit (c : CacheHandle) : List String → Option (String × OpenLibraryResponse)
  | [] => none
  | v :: vs =>
    match getJSON c ("search:" ++ v) with
    | Except.ok r => some (v, r)
    | Except.error _ => firstExactHit c vs

/-- Result of checkCache (search.go lines 173–272). -/
inductive CacheOutcome
  | exactHit (variation : String) (r : OpenLibraryResponse)
  | fuzzyHit (best : CacheMatch) (r : OpenLibraryResponse)
  | miss
deriving DecidableEq, Repr

/-- checkCache: exact variations in priority order, then fuzzy matching
with bound 5, then fetch of the best fuzzy candidate's Key. -/
def checkCache (cache : Option CacheHandle) (query : String) : CacheOutcome :=
  match cache with
  | none => CacheOutcome.miss
  | some c =>
    let variations := generateCacheKeyVariations query
    match firstExactHit c variations with
    | some (v, r) => CacheOutcome.exactHit v r
    | none =>
      match findSimilarCachedQueries cache query 5 with
      | [] => CacheOutcome.miss
      | best :: _ =>
        match getJSON c best.Key with
        | Except.ok r => CacheOutcome.fuzzyHit best r
        | Except.error _ => CacheOutcome.miss

/-- The JSON body Search serves (search.go lines 205–212, 249–258,
279–283, 391–402), coarsened to the cache-relevant fields. -/
inductive SearchResponse
  | badRequest
  | cachedExact (query : String) (numFound : Int) (docs : List String) (cacheKey : String)
  | cachedFuzzy (query : String) (numFound : Int) (docs : List String)
      (matchedQuery : String) (similarityScore : ℚ)
  | fresh (query : String) (numFound : Int) (docs : List String)
deriving DecidableEq, Repr

/-- Search (search.go lines 274–403) with a successful upstream fetch
`upstream`: cache resolution, then upstream fetch on miss, then
write-back under `search:<normalized>` only when a cache is configured.
Returns the served body and the cache state after the request. -/
def searchModel (cache : Option CacheHandle) (query : String)
    (upstream : OpenLibraryResponse) : SearchResponse × Option CacheHandle :=
  if query = "" then (SearchResponse.badRequest, cache)
  else
    match checkCache cache query with
    | CacheOutcome.exactHit v r =>
      (SearchResponse.cachedExact query r.numFound r.docs v, cache)
    | CacheOutcome.fuzzyHit best r =>
      (SearchResponse.cachedFuzzy query r.numFound r.docs best.CachedQuery best.Score, cache)
    | CacheOutcome.miss =>
      let normalizedQuery := normalizeQuery query
      let cacheAfter :=
        match cache with
        | none => none
        | some c => some (cacheSet c ("search:" ++ normalizedQuery) upstream)
      (SearchResponse.fresh query upstream.numFound upstream.docs, cacheAfter)

/-! ### Specification-level reference definitions -/

/-- Stable insertion wrt `lt`: place `x` before the first element it
sorts strictly before, i.e. after every earlier element it does not. -/
def insertOrd {α : Type} (lt : α → α → Bool) (x : α) : List α → List α
  | [] => [x]
  | y :: ys => if lt x y then x :: y :: ys else y :: insertOrd lt x ys

/-- The stable sort wrt `lt` named by the specification: sorted, with
ties between `lt`-equivalent elements kept in input order. -/
def stableSortBy {α : Type} (lt : α → α → Bool) (l : List α) : List α :=
  l.foldl (fun acc x => insertOrd lt x acc) []

/-- `less` of search.go line 102: score strictly greater. -/
def scoreGtB (x y : CacheMatch) : Bool := decide (y.Score < x.Score)

/-- Comparison by a rational key, descending: the shape of the `less`
closure search.go passes to sort.Slice. -/
def keyGt {α : Type} (f : α → ℚ) : α → α → Bool := fun x y => decide (f y < f x)

/-- The cache store with every entry whose retrieval or decoding would
fail removed (so each former error entry now yields plain not-found). -/
def pruneCorrupt (c : CacheHandle) : CacheHandle :=
  ⟨c.keyPre, c.entries.filter (fun e =>
    match e.2 with
    | CacheVal.stored _ => true
    | CacheVal.corrupt => false)⟩

/-! ### Concrete stores used in counterexamples -/

def rec0 : OpenLibraryResponse := ⟨42, 0, true, ["doc0"]⟩

/-- Store for C2: canonical write-back of variant "harry potter" under
namespace `app`. -/
def storeA : CacheHandle := ⟨"app", [("app:search:harry potter", CacheVal.stored rec0)]⟩

/-- Store for C3: namespace `a`, one record. -/
def storeB : CacheHandle := ⟨"a", [("a:search:ab", CacheVal.stored rec0)]⟩

/-- Store for C4, distance-3 side: variant "abcd". -/
def storeC : CacheHandle := ⟨"app", [("app:search:abcd", CacheVal.stored rec0)]⟩

/-- Store for C4, distance-4 side: variant "bb cc dd ee ff". -/
def storeD : CacheHandle := ⟨"a", [("a:search:bb cc dd ee ff", CacheVal.stored rec0)]⟩

/-- Store for C5: thirteen candidate keys; the score-1/3 key sits at
enumeration index 3, all other keys score 1/4. -/
def storeE : CacheHandle :=
  ⟨"p", [("p:search:ab", CacheVal.stored rec0), ("p:search:ac", CacheVal.stored rec0),
         ("p:search:ad", CacheVal.stored rec0), ("p:search:aa", CacheVal.stored rec0),
         ("p:search:ae", CacheVal.stored rec0), ("p:search:af", CacheVal.stored rec0),
         ("p:search:ag", CacheVal.stored rec0), ("p:search:ah", CacheVal.stored rec0),
         ("p:search:ai", CacheVal.stored rec0), ("p:search:aj", CacheVal.stored rec0),
         ("p:search:ak", CacheVal.stored rec0), ("p:search:al", CacheVal.stored rec0),
         ("p:search:am", CacheVal.stored rec0)]⟩

/-- Store for C8: one cached entry, for a query normalizing to "". -/
def storeF : CacheHandle := ⟨"p", [("p:search:ab", CacheVal.stored rec0)]⟩

/-- Store for the C9 witness: a corrupt entry under the first variation
of "azzz", a good record under a later-tried key shape. -/
def storeG : CacheHandle :=
  ⟨"p", [("p:search:azzz", CacheVal.corrupt)]⟩

/-- Store for the C5 witness: two accepted candidates. -/
def storeW : CacheHandle :=
  ⟨"p", [("p:search:aa", CacheVal.stored rec0), ("p:search:ab", CacheVal.stored rec0)]⟩

/-! ### Behavioral sanity checks of the embedding -/

example : normalizeQuery "Harry, Potter!!" = "harry potter" := by decide
example : normalizeQuery "  a   b " = "a b" := by decide
example : normalizeQuery ". a" = " a" := by decide
example : normalizeQuery "_" = "_" := by decide
example : normalizeQuery "!!!" = "" := by decide

example : splitSp "a b".data = ["a".data, "b".data] := by decide
example : splitSp [] = [[]] := by decide
example : splitSp "a  b".data = ["a".data, [], "b".data] := by decide

example : levDist "kitten".data "sitting".data = 3 := by decide
example : levDist [] "abc".data = 3 := by decide
example : levDist "abc".data [] = 3 := by decide
example : levDist "azzz".data "abcd".data = 3 := by decide
example : levDist "harry pottre".data "harry potter".data = 2 := by decide
example : levDist "asearchab".data "a:search:ab".data = 2 := by decide
example : levDist "psearchaa".data "p:search:ab".data = 3 := by decide

example : generateCacheKeyVariations "project hail mary" =
    ["project hail mary", "hail mary project", "projecthailmary"] := by decide
example : generateCacheKeyVariations "!!!" = [] := by decide
example : generateCacheKeyVariations "The Lord of the Rings" =
    ["the lord of the rings", "lord of rings the the", "lord rings",
     "thelordoftherings"] := by decide

/-! ### Claim theorems: counterexamples and code-bug evaluations -/

/-- C1, counterexample.  Normalization is not idempotent: for ". a" the
first pass trims before removing the dot, leaving a leading space that
only the second pass strips. -/
theorem c1_counterexample :
    normalizeQuery (normalizeQuery ". a") ≠ normalizeQuery ". a" := by decide

/-- C6, counterexample.  Go's `\w` keeps the underscore, so "_"
normalizes to itself although '_' is neither letter, digit, nor white
space. -/
theorem c6_counterexample :
    normalizeQuery "_" = "_" ∧ '_' ∈ (normalizeQuery "_").data ∧
    ('_'.isAlpha || '_'.isDigit || goIsUnicodeSp '_') = false := by decide

/-- C7, counterexample.  A query normalizing to the empty string yields
an empty variation list: every candidate variation is "" and the
de-duplication loop drops empty strings. -/
theorem c7_counterexample :
    normalizeQuery "!!!" = "" ∧ generateCacheKeyVariations "!!!" = [] := by decide

/-- C8, counterexample.  For a query normalizing to "", the fuzzy scan
still enumerates and examines the stored keys (search.go has no
empty-query short circuit); only the returned candidate list is empty. -/
theorem c8_counterexample :
    normalizeQuery "!!!" = "" ∧
    fuzzyScannedStrings (some storeF) "!!!" = [("p:search:ab", "p:search:ab")] ∧
    findSimilarCachedQueries (some storeF) "!!!" 5 = [] := by decide

/-- C2, code-bug evaluation.  `Cache.Keys` returns full redis keys
`<prefix>:search:<variant>`, but the scan strips only a literal
"search:", which never matches; so the edit distance is computed against
the full key (and recorded as the matched variant), not against the
stored variant.  Here the variant "harry potter" is at distance 2 from
the normalized query, yet no candidate is produced. -/
theorem c2_code_bug_eval :
    fuzzyScannedStrings (some storeA) "harry pottre" =
      [("app:search:harry potter", "app:search:harry potter")] ∧
    normalizeQuery "harry pottre" = "harry pottre" ∧
    levDist "harry pottre".data "harry potter".data = 2 ∧
    findSimilarCachedQueries (some storeA) "harry pottre" 5 = [] := by decide

/-- C3, code-bug evaluation.  After an exact miss the fuzzy matcher
returns a best candidate whose Key is held by the store, but checkCache
fetches it through GetJSON, which prepends the namespace again
("a" ++ ":" ++ "a:search:ab"); the fetch fails and the resolution falls
through to Miss. -/
theorem c3_code_bug_eval :
    storeLookup storeB "a:search:ab" = some (CacheVal.stored rec0) ∧
    (findSimilarCachedQueries (some storeB) "asearchab" 5).map CacheMatch.Key =
      ["a:search:ab"] ∧
    checkCache (some storeB) "asearchab" = CacheOutcome.miss := by decide

/-- C4, counterexample.  Left: a stored variant at whole-string distance
exactly 3 from the normalized query produces no candidate at all (the
scan compares against the full prefixed key).  Right: a stored variant
at distance exactly 4 is returned as a candidate (via the word-overlap
fallback). -/
theorem c4_counterexample :
    (levDist (normalizeQuery "azzz").data "abcd".data = 3 ∧
     (normalizeQuery "azzz").data ≠ "abcd".data ∧
     findSimilarCachedQueries (some storeC) "azzz" 5 = []) ∧
    (levDist (normalizeQuery "bb cx dx ex fx").data "bb cc dd ee ff".data = 4 ∧
     (findSimilarCachedQueries (some storeD) "bb cx dx ex fx" 5).map CacheMatch.Key =
       ["a:search:bb cc dd ee ff"]) := by decide

/-- C5, counterexample.  With thirteen accepted candidates the unstable
pdqsort of sort.Slice reorders the twelve equal-score candidates away
from their enumeration order, so the output is not the stable
score-descending sort truncated to the requested count. -/
theorem c5_counterexample :
    findSimilarCachedQueries (some storeE) "psearchaa" 13 ≠
      (stableSortBy scoreGtB (collectMatches (normalizeQuery "psearchaa").data
        (splitSp (normalizeQuery "psearchaa").data) (cacheKeysGo storeE))).take 13 := by
  decide

/-- C10: with no cache configured (nil handle) every resolution behaves
as a total miss: the exact loop and the fuzzy matcher find nothing and
raise no error, the upstream result is served, and no write-back
happens. -/
theorem c10_nil_cache_total_miss (q : String) (maxResults : Nat)
    (upstream : OpenLibraryResponse) (h : q ≠ "") :
    checkCache none q = CacheOutcome.miss ∧
    findSimilarCachedQueries none q maxResults = [] ∧
    searchModel none q upstream =
      (SearchResponse.fresh q upstream.numFound upstream.docs, none) := by
  refine ⟨rfl, rfl, ?_⟩
  simp [searchModel, checkCache, h]

/-- C10, witness. -/
theorem c10_witness :
    ("harry" ≠ "") ∧
    (checkCache none "harry" = CacheOutcome.miss ∧
     findSimilarCachedQueries none "harry" 5 = [] ∧
     searchModel none "harry" rec0 =
       (SearchResponse.fresh "harry" rec0.numFound rec0.docs, none)) :=
  ⟨by decide, c10_nil_cache_total_miss "harry" 5 rec0 (by decide)⟩

/-! ### Normalizer structure lemmas -/

theorem char_toNat_ofNat_valid {n : Nat} (h : n < 55296) :
    (Char.ofNat n).toNat = n := by
  rw [Char.ofNat, dif_pos (Or.inl h)]
  rfl

/-- ASCII case folding is idempotent. -/
theorem toLower_toLower (c : Char) : c.toLower.toLower = c.toLower := by
  unfold Char.toLower
  by_cases h : c.toNat ≥ 65 ∧ c.toNat ≤ 90
  · rw [if_pos h]
    have hv : (Char.ofNat (c.toNat + 32)).toNat = c.toNat + 32 :=
      char_toNat_ofNat_valid (by omega)
    rw [hv, if_neg (by omega)]
  · rw [if_neg h, if_neg h]

/-- Every character of the collapsed string is either the inserted space
or a non-white-space character of the input. -/
theorem mem_collapseSpAux {c : Char} :
    ∀ {s : List Char} {b : Bool}, c ∈ collapseSpAux b s →
      c = ' ' ∨ (c ∈ s ∧ goIsRegexSp c = false) := by
  intro s
  induction s with
  | nil => intro b h; simp [collapseSpAux] at h
  | cons a t ih =>
    intro b h
    simp only [collapseSpAux] at h
    by_cases ha : goIsRegexSp a
    · rw [if_pos ha] at h
      cases b with
      | true =>
        rcases ih (by simpa using h) with h1 | ⟨h2, h3⟩
        · exact Or.inl h1
        · exact Or.inr ⟨List.mem_cons_of_mem a h2, h3⟩
      | false =>
        rcases List.mem_cons.mp (by simpa using h) with h0 | h0
        · exact Or.inl h0
        · rcases ih h0 with h1 | ⟨h2, h3⟩
          · exact Or.inl h1
          · exact Or.inr ⟨List.mem_cons_of_mem a h2, h3⟩
    · rw [if_neg ha] at h
      rcases List.mem_cons.mp h with h0 | h0
      · subst h0
        exact Or.inr ⟨List.mem_cons_self _ _, by simpa using ha⟩
      · rcases ih h0 with h1 | ⟨h2, h3⟩
        · exact Or.inl h1
        · exact Or.inr ⟨List.mem_cons_of_mem a h2, h3⟩

theorem mem_goTrimSp {c : Char} {s : List Char} (h : c ∈ goTrimSp s) : c ∈ s := by
  unfold goTrimSp at h
  have h1 := List.mem_reverse.mp h
  have h2 := (List.dropWhile_sublist _).subset h1
  have h3 := List.mem_reverse.mp h2
  exact (List.dropWhile_sublist _).subset h3

/-- Characters of a normalized query: ASCII word characters or single
spaces (in particular Go's `\w` keeps the underscore). -/
theorem normalize_charset (q : String) {c : Char}
    (h : c ∈ (normalizeQuery q).data) : goIsWordChar c = true ∨ c = ' ' := by
  have h' : c ∈ collapseSp (keepWordSp (goTrimSp (goToLower q.data))) := h
  rcases mem_collapseSpAux h' with h1 | ⟨h2, h3⟩
  · exact Or.inr h1
  · left
    have hp := List.of_mem_filter h2
    simp only [Bool.or_eq_true] at hp
    rcases hp with hp | hp
    · exact hp
    · exact absurd hp (by simp [h3])

/-- Characters of a normalized query are fixed points of case folding. -/
theorem normalize_lower_fixed (q : String) {c : Char}
    (h : c ∈ (normalizeQuery q).data) : c.toLower = c := by
  have h' : c ∈ collapseSp (keepWordSp (goTrimSp (goToLower q.data))) := h
  rcases mem_collapseSpAux h' with h1 | ⟨h2, _⟩
  · subst h1; decide
  · have h3 : c ∈ goToLower q.data := mem_goTrimSp (List.mem_of_mem_filter h2)
    rcases List.mem_map.mp h3 with ⟨c0, _, rfl⟩
    exact toLower_toLower c0

theorem goToLower_normalize (q : String) :
    goToLower (normalizeQuery q).data = (normalizeQuery q).data := by
  have h : (normalizeQuery q).data.map Char.toLower = (normalizeQuery q).data.map id :=
    List.map_congr_left (fun c hc => normalize_lower_fixed q hc)
  simpa [goToLower] using h

theorem collapseSpAux_head_not_sp :
    ∀ {s : List Char} {c : Char} {cs : List Char},
      collapseSpAux true s = c :: cs → goIsRegexSp c = false := by
  intro s
  induction s with
  | nil => intro c cs h; simp [collapseSpAux] at h
  | cons a t ih =>
    intro c cs h
    simp only [collapseSpAux] at h
    by_cases ha : goIsRegexSp a
    · rw [if_pos ha] at h
      exact ih (by simpa using h)
    · rw [if_neg ha] at h
      cases h
      simpa using ha

theorem spaceSeparated_collapseSpAux (s : List Char) :
    ∀ b, SpaceSeparated (collapseSpAux b s) := by
  induction s with
  | nil => intro b; simp [collapseSpAux, SpaceSeparated]
  | cons a t ih =>
    intro b
    simp only [collapseSpAux]
    by_cases ha : goIsRegexSp a
    · rw [if_pos ha]
      cases b with
      | true => simpa using ih true
      | false =>
        simp only [Bool.false_eq_true, if_false]
        rw [SpaceSeparated, List.chain'_cons']
        refine ⟨?_, ih true⟩
        intro y hy
        right
        cases hcol : collapseSpAux true t with
        | nil => rw [hcol] at hy; simp at hy
        | cons z zs =>
          rw [hcol] at hy
          simp only [List.head?_cons, Option.mem_def, Option.some.injEq] at hy
          subst hy
          exact collapseSpAux_head_not_sp hcol
    · rw [if_neg ha]
      rw [SpaceSeparated, List.chain'_cons']
      refine ⟨fun y _ => Or.inl (by simpa using ha), ih false⟩

theorem collapseSpAux_eq_self :
    ∀ (s : List Char), (∀ c ∈ s, goIsRegexSp c = true → c = ' ') → SpaceSeparated s →
      collapseSpAux false s = s ∧
      (∀ c cs, s = c :: cs → goIsRegexSp c = false → collapseSpAux true s = s) := by
  intro s
  induction s with
  | nil => exact fun _ _ => ⟨rfl, fun c cs h => by simp at h⟩
  | cons a t ih =>
    intro h1 h2
    have ht1 : ∀ c ∈ t, goIsRegexSp c = true → c = ' ' :=
      fun c hc => h1 c (List.mem_cons_of_mem a hc)
    have hchain := List.chain'_cons'.mp h2
    obtain ⟨ihA, ihB⟩ := ih ht1 hchain.2
    by_cases ha : goIsRegexSp a
    · have ha' : a = ' ' := h1 a (List.mem_cons_self a t) ha
      have hAuxT : collapseSpAux true t = t := by
        cases t with
        | nil => rfl
        | cons x ts =>
          have hx : goIsRegexSp x = false := by
            rcases hchain.1 x (by simp) with hh | hh
            · exact absurd ha (by simp [hh])
            · exact hh
          exact ihB x ts rfl hx
      refine ⟨?_, ?_⟩
      · simp only [collapseSpAux, if_pos ha, Bool.false_eq_true, if_false]
        rw [hAuxT, ha']
      · intro c cs hc hcs
        cases hc
        exact absurd ha (by simp [hcs])
    · refine ⟨?_, ?_⟩
      · simp only [collapseSpAux, if_neg ha]
        rw [ihA]
      · intro c cs hc _
        simp only [collapseSpAux, if_neg ha]
        rw [ihA]

theorem regexSp_not_word {c : Char} (h : goIsRegexSp c = true) :
    goIsWordChar c = false := by
  simp only [goIsRegexSp, Bool.or_eq_true, decide_eq_true_eq] at h
  rcases h with ((((h | h) | h) | h) | h) <;> subst h <;> decide

theorem normalize_trim_clean (q : String) :
    ∀ c ∈ goTrimSp (normalizeQuery q).data, goIsRegexSp c = true → c = ' ' := by
  intro c hc hsp
  rcases normalize_charset q (mem_goTrimSp hc) with h | h
  · exact absurd h (by simp [regexSp_not_word hsp])
  · exact h

theorem spaceSeparated_normalize (q : String) :
    SpaceSeparated (normalizeQuery q).data :=
  spaceSeparated_collapseSpAux _ false

theorem spaceSeparated_reverse {l : List Char} (hl : SpaceSeparated l) :
    SpaceSeparated l.reverse := by
  rw [SpaceSeparated, List.chain'_reverse]
  exact List.Chain'.imp (fun a b hab => hab.symm) hl

theorem spaceSeparated_goTrimSp {s : List Char} (h : SpaceSeparated s) :
    SpaceSeparated (goTrimSp s) :=
  spaceSeparated_reverse
    ((spaceSeparated_reverse (h.suffix (List.dropWhile_suffix _))).suffix
      (List.dropWhile_suffix _))

/-- C1, amended: one normalization pass is idempotent only up to
trimming — a second pass equals the first followed by
`strings.TrimSpace`, because the source trims before removing
punctuation and the removal can expose new leading or trailing spaces.
In particular normalization is idempotent exactly on the queries whose
normalized form carries no leading or trailing white space. -/
theorem c1_amended (q : String) :
    normalizeQuery (normalizeQuery q) = ⟨goTrimSp (normalizeQuery q).data⟩ := by
  have hdata : normalizeQuery (normalizeQuery q) =
      ⟨collapseSp (keepWordSp (goTrimSp (goToLower (normalizeQuery q).data)))⟩ := rfl
  rw [hdata, goToLower_normalize]
  have hkeep : keepWordSp (goTrimSp (normalizeQuery q).data) =
      goTrimSp (normalizeQuery q).data := by
    apply List.filter_eq_self.mpr
    intro c hc
    rcases normalize_charset q (mem_goTrimSp hc) with h | h
    · simp [h]
    · subst h; decide
  rw [hkeep]
  exact congrArg String.mk
    (collapseSpAux_eq_self (goTrimSp (normalizeQuery q).data)
      (normalize_trim_clean q)
      (spaceSeparated_goTrimSp (spaceSeparated_normalize q))).1

/-- C6, amended: the normalizer applies exactly the four steps in the
claimed order, but Go's `\w` also keeps the underscore: every output
character is a `[0-9A-Za-z_]` word character or the space character
(so underscores — and only underscores — escape the claimed
letter/digit/white-space alphabet). -/
theorem c6_amended (q : String) (c : Char) (h : c ∈ (normalizeQuery q).data) :
    goIsWordChar c = true ∨ c = ' ' :=
  normalize_charset q h

/-- C6, witness. -/
theorem c6_witness :
    ('_' ∈ (normalizeQuery "a_b !").data) ∧
    (goIsWordChar '_' = true ∨ '_' = ' ') :=
  ⟨by decide, c6_amended "a_b !" '_' (by decide)⟩

theorem dedupGo_cons_ne_nil (v : String) (vs : List String) (hv : v ≠ "") :
    dedupGo [] (v :: vs) ≠ [] := by
  simp only [dedupGo]
  rw [if_pos ⟨hv, by simp⟩]
  exact List.cons_ne_nil _ _

/-- C7, amended: the variation generator returns a non-empty sequence
for every query whose normalization is non-empty (the normalized query
itself survives de-duplication in first position); a query normalizing
to the empty string yields the empty variation list. -/
theorem c7_amended (q : String) (h : normalizeQuery q ≠ "") :
    generateCacheKeyVariations q ≠ [] := by
  have key : ∀ t, dedupGo [] (normalizeQuery q :: t) ≠ [] := by
    intro t
    simp only [dedupGo]
    rw [if_pos ⟨h, by simp⟩]
    exact List.cons_ne_nil _ _
  unfold generateCacheKeyVariations
  dsimp only
  split
  · simpa using key _
  · simpa using key _

/-- C7, witness. -/
theorem c7_witness :
    (normalizeQuery "ab" ≠ "") ∧ generateCacheKeyVariations "ab" ≠ [] :=
  ⟨by decide, c7_amended "ab" (by decide)⟩

/-! ### Fuzzy scan on an empty normalized query -/

theorem levDist_nil (bs : List Char) : levDist [] bs = bs.length := by
  simp only [levDist, List.foldl_nil]
  rw [List.range_succ]
  simp [List.getLastD_concat]

theorem splitSp_ne_nil (l : List Char) : splitSp l ≠ [] := by
  cases l with
  | nil => simp [splitSp]
  | cons c cs =>
    simp only [splitSp]
    by_cases hc : c = ' '
    · rw [if_pos hc]; exact List.cons_ne_nil _ _
    · rw [if_neg hc]
      rcases hsp : splitSp cs with _ | ⟨w, ws⟩
      · exact List.cons_ne_nil _ _
      · exact List.cons_ne_nil _ _

theorem splitSp_single_or_big (l : List Char) :
    splitSp l = [l] ∨ 2 ≤ (splitSp l).length := by
  induction l with
  | nil => exact Or.inl rfl
  | cons c cs ih =>
    simp only [splitSp]
    by_cases hc : c = ' '
    · rw [if_pos hc]
      right
      rcases hsp : splitSp cs with _ | ⟨w, ws⟩
      · exact absurd hsp (splitSp_ne_nil cs)
      · simp
    · rw [if_neg hc]
      rcases hsp : splitSp cs with _ | ⟨w, ws⟩
      · exact absurd hsp (splitSp_ne_nil cs)
      · rcases ih with h1 | h1
        · rw [hsp] at h1
          obtain ⟨hw, hws⟩ : w = cs ∧ ws = [] := by
            have := List.cons.injEq w ws cs [] ▸ h1
            simpa using h1
          subst hw; subst hws
          exact Or.inl rfl
        · rw [hsp] at h1
          right
          simpa using h1

theorem getD_append_len {α : Type} (A : List α) (u : α) (T : List α) (d : α) :
    (A ++ u :: T).getD A.length d = u := by
  induction A with
  | nil => rfl
  | cons a t ih => simpa using ih

theorem getD_take_eq {α : Type} {l : List α} {n p : Nat} (h : p < n) (d : α) :
    (l.take n).getD p d = l.getD p d := by
  induction l generalizing n p with
  | nil => simp
  | cons a t ih =>
    cases n with
    | zero => omega
    | succ n =>
      cases p with
      | zero => rfl
      | succ p =>
        have h' : p < n := by omega
        simpa using ih h'

/-- Every string the fuzzy scan compares against has at least 4 runes:
enumerated keys start with `<prefix>:search:` and trimming a literal
"search:" can only happen when the namespace string itself begins with
"search", leaving at least the namespace in place. -/
theorem scanned_string_long {pre k : String}
    (h : startsW (pre ++ ":search:").data k.data = true) :
    4 ≤ (goTrimPre k.data "search:".data).length := by
  have hprop : k.data.take (pre ++ ":search:").data.length = (pre ++ ":search:").data :=
    of_decide_eq_true h
  have hkR : k.data =
      (pre ++ ":search:").data ++ k.data.drop (pre ++ ":search:").data.length := by
    conv_lhs => rw [← List.take_append_drop (pre ++ ":search:").data.length k.data]
    rw [hprop]
  set R := k.data.drop (pre ++ ":search:").data.length with hR
  have hpe : (pre ++ ":search:").data = pre.data ++ ':' :: "search:".data := rfl
  have h7 : ("search:".data).length = 7 := by decide
  have hklen : k.data.length = pre.data.length + 8 + R.length := by
    conv_lhs => rw [hkR, hpe]
    rw [List.length_append, List.length_append, List.length_cons, h7]
  unfold goTrimPre
  by_cases hs : k.data.take ("search:".data).length = "search:".data
  · rw [if_pos hs, List.length_drop, h7]
    have hpre3 : 3 ≤ pre.data.length := by
      by_contra hlt
      push_neg at hlt
      have hcolon : k.data.getD pre.data.length ' ' = ':' := by
        conv_lhs => rw [hkR, hpe, List.append_assoc, List.cons_append]
        exact getD_append_len _ _ _ _
      have hsearch : k.data.getD pre.data.length ' ' =
          ("search:".data).getD pre.data.length ' ' := by
        rw [← getD_take_eq (show pre.data.length < ("search:".data).length by
              rw [h7]; omega) ' ', hs]
      rw [hcolon] at hsearch
      have h0 : pre.data.length = 0 ∨ pre.data.length = 1 ∨ pre.data.length = 2 := by
        omega
      rcases h0 with h0 | h0 | h0 <;> rw [h0] at hsearch <;>
        exact absurd hsearch (by decide)
    omega
  · rw [if_neg hs]
    omega

theorem sortSliceGo_nil {α : Type} [Inhabited α] (lt : α → α → Bool) :
    sortSliceGo lt [] = [] := rfl

theorem frac_lt_threshold {m L : Nat} (h : m = 0 ∨ (m ≤ 1 ∧ 2 ≤ L)) :
    ¬ (mkRat (m : Int) L ≥ mkRat 3 5) := by
  intro hge
  rw [ge_iff_le, Rat.mkRat_eq_div, Rat.mkRat_eq_div] at hge
  rcases h with h | ⟨h1, h2⟩
  · subst h
    norm_num at hge
  · have hm : ((m : Int) : ℚ) ≤ 1 := by exact_mod_cast h1
    have hL : (2 : ℚ) ≤ ((L : Nat) : ℚ) := by exact_mod_cast h2
    have hle : ((m : Int) : ℚ) / ((L : Nat) : ℚ) ≤ 1/2 :=
      div_le_div₀ (by norm_num) hm (by norm_num) hL
    have h35 := le_trans hge hle
    norm_num at h35

theorem scoreKey_none_of_empty (k : String)
    (hlong : 4 ≤ (goTrimPre k.data "search:".data).length) :
    scoreKey [] (splitSp []) k = none := by
  have hne : goTrimPre k.data "search:".data ≠ ([] : List Char) := by
    intro heq
    rw [heq] at hlong
    simp at hlong
  unfold scoreKey
  rw [if_neg hne, if_neg (by rw [levDist_nil]; unfold maxLevenshteinDistance; omega)]
  dsimp only
  split
  next hge =>
    exfalso
    have hm1 : List.countP
        (fun qw => (splitSp (goTrimPre k.data "search:".data)).any
          (fun w => decide (levDist qw w ≤ 2))) (splitSp ([] : List Char)) ≤ 1 := by
      refine le_trans (List.countP_le_length _) ?_
      rfl
    rcases splitSp_single_or_big (goTrimPre k.data "search:".data) with hone | hbig
    · have hp0 : ((splitSp (goTrimPre k.data "search:".data)).any
          (fun w => decide (levDist ([] : List Char) w ≤ 2))) = false := by
        rw [hone]
        simp only [List.any_cons, List.any_nil, Bool.or_false, levDist_nil]
        have hlong2 : 4 ≤ (goTrimPre k.data ['s','e','a','r','c','h',':']).length := hlong
        exact decide_eq_false (by omega)
      have hm0 : List.countP
          (fun qw => (splitSp (goTrimPre k.data "search:".data)).any
            (fun w => decide (levDist qw w ≤ 2))) (splitSp ([] : List Char)) = 0 := by
        rw [show splitSp ([] : List Char) = [([] : List Char)] from rfl,
          List.countP_cons, List.countP_nil]
        simp [hp0]
      exact absurd hge (frac_lt_threshold (Or.inl hm0))
    · exact absurd hge (frac_lt_threshold
        (Or.inr ⟨hm1, le_trans hbig (le_max_right _ _)⟩))
  next => rfl

/-- C8, amended: a query normalizing to the empty string always yields
an empty candidate list — but only after the scan has enumerated and
scored every stored key, since the source has no empty-query short
circuit (every compared string keeps at least its 4-rune namespace
remnant, so neither acceptance test can fire against the empty query). -/
theorem c8_amended (cache : Option CacheHandle) (q : String) (maxResults : Nat)
    (h : normalizeQuery q = "") :
    findSimilarCachedQueries cache q maxResults = [] := by
  cases cache with
  | none => rfl
  | some c =>
    have hdata : (normalizeQuery q).data = [] := congrArg String.data h
    have hcoll : collectMatches (normalizeQuery q).data
        (splitSp (normalizeQuery q).data) (cacheKeysGo c) = [] := by
      unfold collectMatches
      rw [List.filterMap_eq_nil_iff]
      intro k hk
      have hst : startsW (c.keyPre ++ ":search:").data k.data = true := by
        simpa using List.of_mem_filter hk
      rw [hdata]
      exact scoreKey_none_of_empty k (scanned_string_long hst)
    simp only [findSimilarCachedQueries, hcoll, sortSliceGo_nil]
    simp

/-- C8, witness. -/
theorem c8_witness :
    (normalizeQuery "??" = "") ∧
    findSimilarCachedQueries (some storeF) "??" 7 = [] :=
  ⟨by decide, c8_amended (some storeF) "??" 7 (by decide)⟩

/-! ### Cache-store errors during exact lookup (C9) -/

theorem storeLookup_prune (c : CacheHandle)
    (hnd : (c.entries.map Prod.fst).Nodup) (k : String) :
    storeLookup (pruneCorrupt c) k =
      match storeLookup c k with
      | some (CacheVal.stored r) => some (CacheVal.stored r)
      | _ => none := by
  obtain ⟨pre, es⟩ := c
  simp only [storeLookup, pruneCorrupt] at hnd ⊢
  revert hnd
  induction es with
  | nil => intro _; rfl
  | cons e es ih =>
    intro hnd
    simp only [List.map_cons, List.nodup_cons] at hnd
    obtain ⟨hk1, hk2⟩ := hnd
    by_cases hek : e.1 = k
    · cases hv : e.2 with
      | stored r =>
        simp [List.filter_cons, hv, List.find?_cons, hek]
      | corrupt =>
        have hnone : ((es.filter fun e => match e.2 with
            | CacheVal.stored _ => true
            | CacheVal.corrupt => false).find? (fun e2 => e2.1 = k)) = none := by
          apply List.find?_eq_none.mpr
          intro x hx
          have hxe : x ∈ es := List.mem_of_mem_filter hx
          simp only [decide_eq_true_eq]
          intro hxk
          exact hk1 (List.mem_map.mpr ⟨x, hxe, by rw [hxk, hek]⟩)
        simp [List.filter_cons, hv, List.find?_cons, hek, hnone]
    · have hskip : (decide (e.1 = k)) = false := decide_eq_false hek
      cases hv : e.2 with
      | stored r =>
        simp only [List.filter_cons, hv]
        rw [if_pos trivial]
        simp only [List.find?_cons, hskip]
        exact ih hk2
      | corrupt =>
        simp only [List.filter_cons, hv, List.find?_cons, hskip]
        exact ih hk2

theorem firstExactHit_prune (c : CacheHandle)
    (hnd : (c.entries.map Prod.fst).Nodup) :
    ∀ vars : List String,
      firstExactHit (pruneCorrupt c) vars = firstExactHit c vars := by
  intro vars
  induction vars with
  | nil => rfl
  | cons v vs ih =>
    simp only [firstExactHit]
    have hcp : (pruneCorrupt c).keyPre = c.keyPre := rfl
    unfold getJSON
    dsimp only
    rw [hcp, storeLookup_prune c hnd (c.keyPre ++ ":" ++ ("search:" ++ v))]
    cases hv : storeLookup c (c.keyPre ++ ":" ++ ("search:" ++ v)) with
    | none => simpa using ih
    | some val =>
      cases val with
      | stored r => rfl
      | corrupt => simpa using ih

/-- C9: a cache-store error (connectivity or deserialization, i.e. any
error other than plain not-found) during an exact-variation lookup is a
miss for that variation only: the loop's outcome on any store equals
its outcome on the store with every failing entry removed, no error is
ever surfaced (checkCache has no error outcome), and on a total miss
the upstream fetch still runs and its result is served. -/
theorem c9_exact_errors_fail_open (c : CacheHandle) (q : String)
    (upstream : OpenLibraryResponse)
    (hnd : (c.entries.map Prod.fst).Nodup) (hq : q ≠ "") :
    firstExactHit c (generateCacheKeyVariations q) =
      firstExactHit (pruneCorrupt c) (generateCacheKeyVariations q) ∧
    (checkCache (some c) q = CacheOutcome.miss →
      (searchModel (some c) q upstream).1 =
        SearchResponse.fresh q upstream.numFound upstream.docs) := by
  refine ⟨(firstExactHit_prune c hnd _).symm, ?_⟩
  intro hmiss
  simp [searchModel, hq, hmiss]

/-- C9, witness. -/
theorem c9_witness :
    ((storeG.entries.map Prod.fst).Nodup ∧ "azzz" ≠ "") ∧
    (firstExactHit storeG (generateCacheKeyVariations "azzz") =
       firstExactHit (pruneCorrupt storeG) (generateCacheKeyVariations "azzz") ∧
     (checkCache (some storeG) "azzz" = CacheOutcome.miss →
       (searchModel (some storeG) "azzz" rec0).1 =
         SearchResponse.fresh "azzz" rec0.numFound rec0.docs)) :=
  ⟨⟨by decide, by decide⟩,
    c9_exact_errors_fail_open storeG "azzz" rec0 (by decide) (by decide)⟩

/-! ### The edit-distance threshold inside the scan loop (C4) -/

theorem scoreKey_key {n : List Char} {qw : List (List Char)} {k' : String}
    {m : CacheMatch} (h : scoreKey n qw k' = some m) : m.Key = k' := by
  unfold scoreKey at h
  dsimp only at h
  split at h
  · exact absurd h (by simp)
  · split at h
    · cases h; rfl
    · split at h
      · cases h; rfl
      · exact absurd h (by simp)

theorem scoreKey_method_lev {n : List Char} {qw : List (List Char)} {k' : String}
    {m : CacheMatch} (h : scoreKey n qw k' = some m)
    (hmeth : m.Method = "levenshtein") :
    levDist n (goTrimPre k'.data "search:".data) ≤ maxLevenshteinDistance := by
  unfold scoreKey at h
  dsimp only at h
  split at h
  · exact absurd h (by simp)
  · split at h
    next hcond => exact hcond
    next hcond =>
      split at h
      · cases h
        simp at hmeth
      · exact absurd h (by simp)

/-- C4, amended: the scan compares each enumerated key only after
stripping a literal leading "search:" (for keys of the namespace
convention this leaves the namespace attached, so the stored variant
itself is never what is compared).  For the compared string s ≠
normalized query: at whole-string distance exactly 3 the key is
accepted into the pre-truncation candidate list with score 1/4 and
method "levenshtein"; at distance 4 it is never accepted by the
edit-distance method, though the word-overlap fallback may still accept
it with method "word-match". -/
theorem c4_amended (nq : String) (keys : List String) (k : String)
    (hn : normalizeQuery nq = nq) (hk : k ∈ keys)
    (hne : goTrimPre k.data "search:".data ≠ nq.data) :
    (levDist nq.data (goTrimPre k.data "search:".data) = 3 →
      (⟨k, ⟨goTrimPre k.data "search:".data⟩, mkRat 1 4, "levenshtein"⟩ : CacheMatch) ∈
        collectMatches nq.data (splitSp nq.data) keys) ∧
    (levDist nq.data (goTrimPre k.data "search:".data) = 4 →
      ∀ m ∈ collectMatches nq.data (splitSp nq.data) keys,
        m.Key = k → m.Method ≠ "levenshtein") := by
  constructor
  · intro h3
    apply List.mem_filterMap.mpr
    refine ⟨k, hk, ?_⟩
    unfold scoreKey
    dsimp only
    rw [if_neg hne, h3, if_pos (by decide)]
  · intro h4 m hm hkey hmeth
    obtain ⟨k', hk', hsc⟩ := List.mem_filterMap.mp hm
    have hkk : m.Key = k' := scoreKey_key hsc
    rw [hkey] at hkk
    subst hkk
    have hle := scoreKey_method_lev hsc hmeth
    rw [h4] at hle
    exact absurd hle (by decide)

/-- C4, witness. -/
theorem c4_witness :
    (normalizeQuery "azzz" = "azzz" ∧ "search:abcd" ∈ ["search:abcd"] ∧
     goTrimPre "search:abcd".data "search:".data ≠ "azzz".data ∧
     levDist "azzz".data (goTrimPre "search:abcd".data "search:".data) = 3) ∧
    (⟨"search:abcd", ⟨goTrimPre "search:abcd".data "search:".data⟩, mkRat 1 4,
      "levenshtein"⟩ : CacheMatch) ∈
      collectMatches "azzz".data (splitSp "azzz".data) ["search:abcd"] :=
  ⟨⟨by decide, by decide, by decide, by decide⟩,
   (c4_amended "azzz" ["search:abcd"] "search:abcd" (by decide) (by decide)
      (by decide)).1 (by decide)⟩

/-! ### sort.Slice on at most 12 candidates is the stable sort (C5) -/

theorem list_set_append_len {α : Type} (P : List α) (u : α) (T : List α) (v : α) :
    (P ++ u :: T).set P.length v = P ++ v :: T := by
  induction P with
  | nil => rfl
  | cons a t ih => simpa using ih

theorem list_set_append_len1 {α : Type} (P : List α) (u w : α) (T : List α) (v : α) :
    (P ++ u :: w :: T).set (P.length + 1) v = P ++ u :: v :: T := by
  induction P with
  | nil => rfl
  | cons a t ih => simpa using ih

theorem getD_append_len1 {α : Type} (P : List α) (u w : α) (T : List α) (d : α) :
    (P ++ u :: w :: T).getD (P.length + 1) d = w := by
  induction P with
  | nil => rfl
  | cons a t ih => simpa using ih

theorem aGet_append_len {α : Type} [Inhabited α] (P : List α) (u : α) (T : List α) :
    aGet ((P ++ u :: T).toArray) P.length = u :=
  getD_append_len P u T default

theorem aGet_append_len1 {α : Type} [Inhabited α] (P : List α) (u w : α) (T : List α) :
    aGet ((P ++ u :: w :: T).toArray) (P.length + 1) = w :=
  getD_append_len1 P u w T default

theorem aswap_adj {α : Type} [Inhabited α] (S : List α) (u x : α) (R : List α) :
    aswap ((S ++ u :: x :: R).toArray) (S.length + 1) S.length =
      (S ++ x :: u :: R).toArray := by
  apply Array.ext'
  show ((S ++ u :: x :: R).set (S.length + 1)
      (aGet ((S ++ u :: x :: R).toArray) S.length)).set S.length
      (aGet ((S ++ u :: x :: R).toArray) (S.length + 1)) = S ++ x :: u :: R
  rw [aGet_append_len, aGet_append_len1, list_set_append_len1, list_set_append_len]

theorem insertOrd_append_true {α : Type} (lt : α → α → Bool) (x u : α) (l : List α)
    (h : lt x u = true) : insertOrd lt x (l ++ [u]) = insertOrd lt x l ++ [u] := by
  induction l with
  | nil => simp [insertOrd, h]
  | cons y t ih =>
    simp only [List.cons_append, insertOrd]
    by_cases hy : lt x y
    · rw [if_pos hy, if_pos hy]
      rfl
    · rw [if_neg hy, if_neg hy]
      simp only [List.append_eq]
      rw [ih]
      rfl

theorem insertOrd_all_false {α : Type} (lt : α → α → Bool) (x : α) (l : List α)
    (h : ∀ y ∈ l, lt x y = false) : insertOrd lt x l = l ++ [x] := by
  induction l with
  | nil => rfl
  | cons y t ih =>
    simp only [insertOrd]
    rw [if_neg (by simp [h y (List.mem_cons_self y t)])]
    rw [ih (fun z hz => h z (List.mem_cons_of_mem y hz))]
    rfl

theorem mem_insertOrd {α : Type} (lt : α → α → Bool) {x z : α} {l : List α}
    (h : z ∈ insertOrd lt x l) : z = x ∨ z ∈ l := by
  induction l with
  | nil => simpa [insertOrd] using h
  | cons y t ih =>
    simp only [insertOrd] at h
    by_cases hy : lt x y
    · rw [if_pos hy] at h
      rcases List.mem_cons.mp h with h1 | h1
      · exact Or.inl h1
      · exact Or.inr h1
    · rw [if_neg hy] at h
      rcases List.mem_cons.mp h with h1 | h1
      · exact Or.inr (h1 ▸ List.mem_cons_self y t)
      · rcases ih h1 with h2 | h2
        · exact Or.inl h2
        · exact Or.inr (List.mem_cons_of_mem y h2)

theorem length_insertOrd {α : Type} (lt : α → α → Bool) (x : α) (l : List α) :
    (insertOrd lt x l).length = l.length + 1 := by
  induction l with
  | nil => rfl
  | cons y t ih =>
    simp only [insertOrd]
    by_cases hy : lt x y
    · rw [if_pos hy]; rfl
    · rw [if_neg hy]
      simp [ih]

theorem sorted_insertOrd {α : Type} (f : α → ℚ) (x : α) {l : List α}
    (hs : List.Sorted (fun a b => f b ≤ f a) l) :
    List.Sorted (fun a b => f b ≤ f a) (insertOrd (keyGt f) x l) := by
  induction l with
  | nil => simp [insertOrd]
  | cons y t ih =>
    rw [List.sorted_cons] at hs
    obtain ⟨hy, ht⟩ := hs
    simp only [insertOrd]
    by_cases hxy : keyGt f x y
    · rw [if_pos hxy]
      have hfy : f y < f x := of_decide_eq_true hxy
      rw [List.sorted_cons]
      refine ⟨?_, List.sorted_cons.mpr ⟨hy, ht⟩⟩
      intro b hb
      rcases List.mem_cons.mp hb with h1 | h1
      · exact le_of_lt (h1 ▸ hfy)
      · exact le_trans (hy b h1) (le_of_lt hfy)
    · rw [if_neg hxy]
      have hfx : f x ≤ f y := not_lt.mp (fun hc => hxy (decide_eq_true hc))
      rw [List.sorted_cons]
      refine ⟨?_, ih ht⟩
      intro b hb
      rcases mem_insertOrd (keyGt f) hb with h1 | h1
      · exact h1 ▸ hfx
      · exact hy b h1

theorem bubbleLeft_spec {α : Type} [Inhabited α] (f : α → ℚ) :
    ∀ (S : List α) (x : α) (R : List α),
      List.Sorted (fun a b => f b ≤ f a) S →
      bubbleLeft (keyGt f) 0 ((S ++ x :: R).toArray) S.length =
        ((insertOrd (keyGt f) x S) ++ R).toArray := by
  intro S
  induction S using List.reverseRecOn with
  | nil => intro x R _; rfl
  | append_singleton S' u ih =>
    intro x R hs
    have hlen : (S' ++ [u]).length = S'.length + 1 := by simp
    have hA : ((S' ++ [u]) ++ x :: R) = S' ++ u :: x :: R := by simp
    rw [hlen, hA]
    show (if 0 < S'.length + 1 && lessAt (keyGt f) ((S' ++ u :: x :: R).toArray)
        (S'.length + 1) S'.length then
        bubbleLeft (keyGt f) 0
          (aswap ((S' ++ u :: x :: R).toArray) (S'.length + 1) S'.length) S'.length
      else ((S' ++ u :: x :: R).toArray)) = _
    have hless : lessAt (keyGt f) ((S' ++ u :: x :: R).toArray)
        (S'.length + 1) S'.length = keyGt f x u := by
      unfold lessAt
      rw [aGet_append_len, aGet_append_len1]
    rw [hless]
    have hs' : List.Sorted (fun a b => f b ≤ f a) S' :=
      (List.pairwise_append.mp hs).1
    by_cases hxu : keyGt f x u
    · rw [if_pos (by simp [hxu])]
      rw [aswap_adj, ih x (u :: R) hs']
      rw [insertOrd_append_true (keyGt f) x u S' hxu]
      simp
    · rw [if_neg (by simp [hxu])]
      have hall : ∀ y ∈ S' ++ [u], keyGt f x y = false := by
        intro y hy
        have hfxu : f x ≤ f u := not_lt.mp (fun hc => hxu (decide_eq_true hc))
        rcases List.mem_append.mp hy with h1 | h1
        · have hsu := List.pairwise_append.mp hs
          have huy : f u ≤ f y := hsu.2.2 y h1 u (List.mem_singleton_self u)
          exact decide_eq_false (not_lt.mpr (le_trans hfxu huy))
        · rw [List.mem_singleton.mp h1]
          exact decide_eq_false (not_lt.mpr hfxu)
      rw [insertOrd_all_false (keyGt f) x (S' ++ [u]) hall]
      simp

theorem insertionLoop_spec {α : Type} [Inhabited α] (f : α → ℚ) :
    ∀ (rest S : List α), List.Sorted (fun a b => f b ≤ f a) S →
      insertionLoop (keyGt f) 0 ((S ++ rest).toArray) S.length rest.length =
        (rest.foldl (fun acc x => insertOrd (keyGt f) x acc) S).toArray := by
  intro rest
  induction rest with
  | nil =>
    intro S _
    show (S ++ []).toArray = (S).toArray
    simp
  | cons x rest' ih =>
    intro S hs
    show insertionLoop (keyGt f) 0
        (bubbleLeft (keyGt f) 0 ((S ++ x :: rest').toArray) S.length)
        (S.length + 1) rest'.length = _
    rw [bubbleLeft_spec f S x rest' hs]
    rw [show S.length + 1 = (insertOrd (keyGt f) x S).length from
      (length_insertOrd _ _ _).symm]
    rw [ih (insertOrd (keyGt f) x S) (sorted_insertOrd f x hs)]
    rfl

theorem insertionSortGo_spec {α : Type} [Inhabited α] (f : α → ℚ) (l : List α) :
    insertionSortGo (keyGt f) (l.toArray) 0 l.length =
      (stableSortBy (keyGt f) l).toArray := by
  cases l with
  | nil => rfl
  | cons x rest =>
    show insertionLoop (keyGt f) 0 ((x :: rest).toArray) 1 (rest.length + 1 - 1) =
      (stableSortBy (keyGt f) (x :: rest)).toArray
    rw [show rest.length + 1 - 1 = rest.length from rfl]
    have hx : ((x :: rest) : List α) = [x] ++ rest := rfl
    rw [hx]
    have h1 : ([x] : List α).length = 1 := rfl
    rw [← h1]
    rw [insertionLoop_spec f rest [x] (by simp)]
    rfl

theorem length_stableSortBy {α : Type} (lt : α → α → Bool) (l : List α) :
    (stableSortBy lt l).length = l.length := by
  have h : ∀ acc : List α,
      (l.foldl (fun acc x => insertOrd lt x acc) acc).length = acc.length + l.length := by
    induction l with
    | nil => intro acc; simp
    | cons x t ih =>
      intro acc
      simp only [List.foldl_cons]
      rw [ih (insertOrd lt x acc), length_insertOrd]
      simp only [List.length_cons]
      omega
  simpa [stableSortBy] using h []

theorem sortSliceGo_short {α : Type} [Inhabited α] (f : α → ℚ) (l : List α)
    (h : l.length ≤ 12) :
    sortSliceGo (keyGt f) l = stableSortBy (keyGt f) l := by
  unfold sortSliceGo
  dsimp only
  have hsz : l.toArray.size = l.length := by simp
  obtain ⟨k, hk⟩ : ∃ k, (l.toArray.size + 2) * (l.toArray.size + 2) +
      bitsLen l.toArray.size + 2 = k + 1 :=
    ⟨(l.toArray.size + 2) * (l.toArray.size + 2) + bitsLen l.toArray.size + 1, by omega⟩
  rw [hk, pdqLoop]
  dsimp only
  rw [if_pos (by rw [Nat.sub_zero, hsz]; exact h)]
  rw [show l.toArray.size = l.length from hsz, insertionSortGo_spec f l]

/-- C5, amended: the fuzzy matcher's output is the accepted candidates
sorted by score descending and truncated to at most the requested
maximum count; whenever at most 12 candidates were accepted this output
is exactly the stable sort (ties kept in enumeration order).  With more
than 12 candidates the unstable sort.Slice (pdqsort) may reorder
equal-score candidates, so stability is not guaranteed in general. -/
theorem c5_amended (c : CacheHandle) (q : String) (maxResults : Nat)
    (h : (collectMatches (normalizeQuery q).data (splitSp (normalizeQuery q).data)
        (cacheKeysGo c)).length ≤ 12) :
    findSimilarCachedQueries (some c) q maxResults =
      (stableSortBy scoreGtB (collectMatches (normalizeQuery q).data
        (splitSp (normalizeQuery q).data) (cacheKeysGo c))).take maxResults := by
  simp only [findSimilarCachedQueries]
  rw [show (fun x y : CacheMatch => decide (y.Score < x.Score)) =
      keyGt CacheMatch.Score from rfl]
  rw [sortSliceGo_short CacheMatch.Score _ h]
  rw [show keyGt CacheMatch.Score = scoreGtB from rfl]
  by_cases hgt : (stableSortBy scoreGtB (collectMatches (normalizeQuery q).data
      (splitSp (normalizeQuery q).data) (cacheKeysGo c))).length > maxResults
  · rw [if_pos hgt]
  · rw [if_neg hgt]
    rw [List.take_of_length_le (by omega)]

/-- C5, witness. -/
theorem c5_witness :
    ((collectMatches (normalizeQuery "psearchaa").data
        (splitSp (normalizeQuery "psearchaa").data) (cacheKeysGo storeW)).length ≤ 12) ∧
    findSimilarCachedQueries (some storeW) "psearchaa" 5 =
      (stableSortBy scoreGtB (collectMatches (normalizeQuery "psearchaa").data
        (splitSp (normalizeQuery "psearchaa").data) (cacheKeysGo storeW))).take 5 :=
  ⟨by decide, c5_amended storeW "psearchaa" 5 (by decide)⟩
